import Mathlib

/-!
Verification development for the 1026bot course-assistant service
(`src/main.ts`).  The TypeScript source is shallowly embedded: strings are
`List Char`, the JavaScript regular expressions used by the query
classifiers, the sectionizer and the deterministic extractor are embedded
as executable matching functions, and each exported function of the source
is mirrored by a Lean definition of the same name.

The file covers the third evolution of the routing logic
(`shouldRouteToEboEssayBot`, `hasLogisticsIntent`, `hasInstructionIntent`,
`mentionsEBO`, `mentionsEssayOnly`, `parseSections`,
`pickSectionsForEntity`, `extractDueBlockFrom`) as well as the first
evolution's extractor and `cleanupSuperscripts`, which the claims also
reference.
-/

/-! ## Character classes

Character predicates for the embedded regex engine.  JavaScript `\w` is
`[A-Za-z0-9_]`; `\s` and `String.prototype.trim` use the WhiteSpace and
LineTerminator sets, of which we model the characters that can appear in
the service's ASCII-oriented inputs plus the explicit Unicode line and
space separators.
-/

def isWordChar (c : Char) : Bool :=
  c.isAlpha || c.isDigit || decide (c = '_')

def isSpaceJS (c : Char) : Bool :=
  decide (c = ' ') || decide (c = '\t') || decide (c = '\n') ||
  decide (c = '\r') || decide (c = '\x0b') || decide (c = '\x0c') ||
  decide (c = '\u00A0') || decide (c = '\u2028') || decide (c = '\u2029') ||
  decide (c = '\uFEFF')

/-- JavaScript LineTerminator characters (`\n`, `\r`, U+2028, U+2029);
these are the characters `.` does not match and the positions at which
multiline `^`/`$` anchor. -/
def isLineTerm (c : Char) : Bool :=
  decide (c = '\n') || decide (c = '\r') ||
  decide (c = '\u2028') || decide (c = '\u2029')

/-- ASCII lower-casing, modelling `String.prototype.toLowerCase` and the
`i` regex flag on the ASCII patterns used by the source. -/
def lc (c : Char) : Char :=
  if 'A' ≤ c ∧ c ≤ 'Z' then Char.ofNat (c.toNat + 32) else c

/-- Convert a Lean string literal to the `List Char` representation used
throughout this development. -/
def cs (s : String) : List Char := s.toList

/-! ## Generic list-of-characters helpers -/

/-- Maximal run: split `l` into its longest prefix of characters
satisfying `p` and the remainder. -/
def takeRun (p : Char → Bool) : List Char → List Char × List Char
  | [] => ([], [])
  | c :: rest =>
    if p c then
      let r := takeRun p rest
      (c :: r.1, r.2)
    else ([], c :: rest)

/-- Maximal run capped at `n` characters. -/
def takeRunMax (p : Char → Bool) : Nat → List Char → List Char × List Char
  | 0, l => ([], l)
  | _, [] => ([], [])
  | n + 1, c :: rest =>
    if p c then
      let r := takeRunMax p n rest
      (c :: r.1, r.2)
    else ([], c :: rest)

/-- JavaScript `String.prototype.trim` on the embedded character lists. -/
def trim (l : List Char) : List Char :=
  ((l.dropWhile isSpaceJS).reverse.dropWhile isSpaceJS).reverse

/-- JavaScript `String.prototype.trimEnd`. -/
def trimEnd (l : List Char) : List Char :=
  (l.reverse.dropWhile isSpaceJS).reverse

/-- JavaScript `text.split(/\r?\n/)`: split at each `\r\n` or `\n`. -/
def splitLines : List Char → List (List Char)
  | [] => [[]]
  | '\r' :: '\n' :: rest =>
    [] :: splitLines rest
  | '\n' :: rest =>
    [] :: splitLines rest
  | c :: rest =>
    match splitLines rest with
    | [] => [[c]]
    | l :: ls => (c :: l) :: ls

/-- JavaScript `Array.from(new Set(xs))`: de-duplicate preserving the
order of first occurrence. -/
def dedupFirstAux (seen : List (List Char)) : List (List Char) → List (List Char)
  | [] => []
  | x :: rest =>
    if seen.contains x then dedupFirstAux seen rest
    else x :: dedupFirstAux (x :: seen) rest

def dedupFirst (l : List (List Char)) : List (List Char) := dedupFirstAux [] l

/-- JavaScript `md.slice(a, b)` for non-negative indices. -/
def sliceCL (l : List Char) (a b : Nat) : List Char := (l.take b).drop a

/-! ## Embedded regex engine

Patterns are embedded in continuation-passing style.  A continuation
`K` receives the character immediately before the current position (for
word-boundary tests) and the remaining input; a pattern transforms a
continuation.  `testPat` implements the unanchored `RegExp.prototype.test`
search: it tries the pattern at every position of the input.  Character
comparison goes through `lc`, which models the `i` flag; all the flagged
source patterns are ASCII.
-/

def K : Type := Option Char → List Char → Bool

def isWordOpt : Option Char → Bool
  | none => false
  | some c => isWordChar c

/-- Word boundary `\b`: consumes nothing, requires the word-character
status to change between the previous character and the next one. -/
def pWb (k : K) : K := fun prev l =>
  (isWordOpt prev != (match l with
    | [] => false
    | c :: _ => isWordChar c)) && k prev l

/-- Literal string (case-insensitive via `lc`). -/
def strAux : List Char → K → K
  | [], k => k
  | w :: ws, k => fun _ l =>
    match l with
    | [] => false
    | c :: rest => (lc c == w) && strAux ws k (some c) rest

def pStr (s : String) (k : K) : K := strAux s.toList k

def pChar (w : Char) (k : K) : K := strAux [w] k

/-- Single character from a class. -/
def pCls (p : Char → Bool) (k : K) : K := fun _ l =>
  match l with
  | [] => false
  | c :: rest => p c && k (some c) rest

/-- `?` on a sub-pattern (for `test` only existence matters, so both
branches are tried). -/
def pOpt (pat : K → K) (k : K) : K := fun prev l =>
  pat k prev l || k prev l

/-- Alternation of two sub-patterns. -/
def pAlt (a b : K → K) (k : K) : K := fun prev l =>
  a k prev l || b k prev l

/-- `*` over a character class (the only starred sub-patterns in the
source are `\s*` and `.*`). -/
def starAux (p : Char → Bool) (k : K) : Option Char → List Char → Bool
  | prev, [] => k prev []
  | prev, c :: rest => k prev (c :: rest) || (p c && starAux p k (some c) rest)

def pStarCls (p : Char → Bool) (k : K) : K := fun prev l => starAux p k prev l

/-- `+` over a character class (`\s+`). -/
def pPlusCls (p : Char → Bool) (k : K) : K := pCls p (pStarCls p k)

/-- The always-accepting continuation ending a pattern. -/
def kAccept : K := fun _ _ => true

/-- Unanchored search (`RegExp.prototype.test`): try the pattern at every
position, threading the previous character for word boundaries. -/
def scanK (f : K) : Option Char → List Char → Bool
  | prev, [] => f prev []
  | prev, c :: rest => f prev (c :: rest) || scanK f (some c) rest

def testPat (pat : K → K) (s : List Char) : Bool :=
  scanK (pat kAccept) none s

/-- JavaScript `.` without the `s` flag: any non-LineTerminator. -/
def notLT (c : Char) : Bool := !(isLineTerm c)

/-! ## Query classifiers (src/main.ts, third evolution, lines 536-583) -/

/-- Source: `function norm(s) { return (s || "").toLowerCase(); }`. -/
def normQ (q : List Char) : List Char := q.map lc

/-- Regex `\b(e\.?\s*b\.?\s*o\.?|exploratory\b.*\bbibliograph)`. -/
def eboPat : K → K :=
  pWb ∘ pAlt
    (pChar 'e' ∘ pOpt (pChar '.') ∘ pStarCls isSpaceJS ∘
     pChar 'b' ∘ pOpt (pChar '.') ∘ pStarCls isSpaceJS ∘
     pChar 'o' ∘ pOpt (pChar '.'))
    (pStr "exploratory" ∘ pWb ∘ pStarCls notLT ∘ pWb ∘ pStr "bibliograph")

/-- Source: `mentionsEBO` (line 538). -/
def mentionsEBO (q : List Char) : Bool := testPat eboPat (normQ q)

/-- Regex `\bessay|essays\b`; the alternation groups as
`(\bessay)|(essays\b)`. -/
def essayPat : K → K :=
  pAlt (pWb ∘ pStr "essay") (pStr "essays" ∘ pWb)

/-- Source: `mentionsEssayOnly` (line 543). -/
def mentionsEssayOnly (q : List Char) : Bool :=
  testPat essayPat (normQ q) && !(mentionsEBO q)

/-- The pattern list of `hasLogisticsIntent` (lines 550-556), in source
order. -/
def logisticsPats : List (K → K) :=
  [ pWb ∘ pStr "when" ∘ pWb ∘ pStarCls notLT ∘ pWb ∘ pStr "due" ∘ pWb
  , pWb ∘ pStr "due" ∘ pStarCls isSpaceJS ∘ pStr "date" ∘ pWb
  , pWb ∘ pStr "deadline" ∘ pWb
  , pWb ∘ pStr "due" ∘ pWb
  , pWb ∘ pStr "late" ∘ pWb
  , pWb ∘ pStr "penalt" ∘ pAlt (pStr "y") (pStr "ies") ∘ pWb
  , pWb ∘ pStr "submission" ∘ pPlusCls isSpaceJS ∘ pStr "window" ∘ pWb
  , pWb ∘ pStr "submit" ∘ pWb
  , pWb ∘ pStr "worth" ∘ pWb
  , pWb ∘ pStr "weight" ∘ pOpt (pStr "ing") ∘ pWb
  , pWb ∘ pStr "percent" ∘ pOpt (pStr "age") ∘ pWb
  , pWb ∘ pStr "mark" ∘ pOpt (pChar 's') ∘ pWb
  , pWb ∘ pStr "open" ∘ pOpt (pAlt (pChar 's') (pStr "ing")) ∘ pWb
  , pWb ∘ pStr "close" ∘ pOpt (pAlt (pChar 's') (pStr "ing")) ∘ pWb
  , pWb ∘ pStr "availability" ∘ pWb
  , pWb ∘ pStr "window" ∘ pWb
  , pWb ∘ pStr "date" ∘ pWb
  , pWb ∘ pStr "time" ∘ pWb
  , pWb ∘ pStr "schedule" ∘ pWb ]

/-- Source: `hasLogisticsIntent` (line 548). -/
def hasLogisticsIntent (q : List Char) : Bool :=
  logisticsPats.any (fun p => testPat p (normQ q))

/-- The pattern list of `hasInstructionIntent` (lines 562-570), in source
order. -/
def instructionPats : List (K → K) :=
  [ pWb ∘ pStr "how" ∘ pPlusCls isSpaceJS ∘ pStr "to" ∘ pWb
  , pWb ∘ pStr "how" ∘ pPlusCls isSpaceJS ∘ pStr "do" ∘ pPlusCls isSpaceJS ∘ pStr "i" ∘ pWb
  , pWb ∘ pStr "instruction" ∘ pOpt (pChar 's') ∘ pWb
  , pWb ∘ pStr "step" ∘ pOpt (pChar 's') ∘ pWb
  , pWb ∘ pStr "format" ∘ pOpt (pStr "ting") ∘ pWb
  , pWb ∘ pStr "citation" ∘ pOpt (pChar 's') ∘ pWb
  , pWb ∘ pStr "reference" ∘ pOpt (pChar 's') ∘ pWb
  , pWb ∘ pStr "mla" ∘ pWb
  , pWb ∘ pStr "chicago" ∘ pWb
  , pWb ∘ pStr "turabian" ∘ pWb
  , pWb ∘ pStr "rubric" ∘ pWb
  , pWb ∘ pStr "requirement" ∘ pOpt (pChar 's') ∘ pWb
  , pWb ∘ pStr "word" ∘ pStarCls isSpaceJS ∘ pStr "count" ∘ pWb
  , pWb ∘ pStr "structure" ∘ pWb
  , pWb ∘ pStr "outline" ∘ pOpt (pChar 's') ∘ pWb
  , pWb ∘ pStr "template" ∘ pWb
  , pWb ∘ pStr "scaffold" ∘ pOpt (pStr "ing") ∘ pWb
  , pWb ∘ pStr "submit" ∘ pOpt (pStr "ting") ∘ pWb
  , pWb ∘ pStr "submission" ∘ pWb
  , pWb ∘ pStr "checklist" ∘ pWb
  , pWb ∘ pStr "example" ∘ pOpt (pChar 's') ∘ pWb
  , pWb ∘ pStr "model" ∘ pPlusCls isSpaceJS ∘ pStr "paper" ∘ pWb
  , pWb ∘ pStr "can" ∘ pPlusCls isSpaceJS ∘ pStr "i" ∘ pPlusCls isSpaceJS ∘ pStr "use" ∘ pWb
  , pWb ∘ pStr "is" ∘ pPlusCls isSpaceJS ∘ pStr "it" ∘ pPlusCls isSpaceJS ∘ pStr "okay" ∘ pPlusCls isSpaceJS ∘ pStr "to" ∘ pWb
  , pWb ∘ pStr "should" ∘ pPlusCls isSpaceJS ∘ pStr "i" ∘ pWb ]

/-- Source: `hasInstructionIntent` (line 560). -/
def hasInstructionIntent (q : List Char) : Bool :=
  instructionPats.any (fun p => testPat p (normQ q))

/-- Source: `shouldRouteToEboEssayBot` (lines 579-583), mirroring the
early-return structure. -/
def shouldRouteToEboEssayBot (q : List Char) : Bool :=
  if !(mentionsEBO q || mentionsEssayOnly q) then false
  else if hasLogisticsIntent q then false
  else hasInstructionIntent q

/-- The three routes of the serve handler (lines 722, 743, 771). -/
inductive Route where
  | redirect
  | deterministic
  | fallback
  deriving DecidableEq, Repr

/-- The handler's intake routing gate: redirect when
`shouldRouteToEboEssayBot` (line 722), otherwise the deterministic branch
is entered iff `hasLogisticsIntent(query) && (mentionsEBO(query) ||
mentionsEssayOnly(query))` (line 743), and every other query reaches the
model fallback (line 771). -/
def route (q : List Char) : Route :=
  if shouldRouteToEboEssayBot q then Route.redirect
  else if hasLogisticsIntent q && (mentionsEBO q || mentionsEssayOnly q) then Route.deterministic
  else Route.fallback

/-! ## Lesson-link extraction (src/main.ts lines 531-532, 604-606)

`LESSON_RE` is
`https://westernu\.brightspace\.com/d2l/le/lessons/\d+/(?:lessons|units|topics)/\d+`
with the `g` flag: `match` collects the leftmost non-overlapping matches.
The pattern is case-sensitive.
-/

/-- Strip an exact (case-sensitive) prefix, returning the remainder. -/
def stripExact : List Char → List Char → Option (List Char)
  | [], l => some l
  | _, [] => none
  | w :: ws, c :: rest => if c = w then stripExact ws rest else none

/-- Try to match `LESSON_RE` at the head of `l`; on success return the
matched text and the number of characters consumed. -/
def lessonAt (l : List Char) : Option (List Char × Nat) :=
  match stripExact (cs "https://westernu.brightspace.com/d2l/le/lessons/") l with
  | none => none
  | some r1 =>
    let d1 := takeRun Char.isDigit r1
    if d1.1.isEmpty then none
    else
      let seg :=
        match stripExact (cs "/lessons/") d1.2 with
        | some r3 => some (cs "/lessons/", r3)
        | none =>
          match stripExact (cs "/units/") d1.2 with
          | some r3 => some (cs "/units/", r3)
          | none =>
            match stripExact (cs "/topics/") d1.2 with
            | some r3 => some (cs "/topics/", r3)
            | none => none
      match seg with
      | none => none
      | some (sg, r3) =>
        let d2 := takeRun Char.isDigit r3
        if d2.1.isEmpty then none
        else
          let text :=
            cs "https://westernu.brightspace.com/d2l/le/lessons/" ++ d1.1 ++ sg ++ d2.1
          some (text, text.length)

/-- Left-to-right global scan for `LESSON_RE`, advancing past each match
(`String.prototype.match` with `g`).  The fuel argument is the input
length; each step consumes at least one character. -/
def lessonScan : Nat → List Char → List (List Char)
  | 0, _ => []
  | _ + 1, [] => []
  | fuel + 1, c :: rest =>
    match lessonAt (c :: rest) with
    | some (text, n) => text :: lessonScan fuel (rest.drop (n - 1))
    | none => lessonScan fuel rest

def lessonMatches (l : List Char) : List (List Char) := lessonScan l.length l

/-! ## Sectionizer (src/main.ts lines 587-610)

`HEADING_RX` is `/^(#{1,6})\s+(.+)$/gm`.  `matchAll` scans left to right;
`^` anchors at position 0 or after a LineTerminator, `\s` may span
newlines, `.` excludes LineTerminators and `$` matches before a
LineTerminator or at end of input.  A match at a line start consists of a
maximal run of 1-6 `#`, a maximal whitespace run, and then (with the
engine's greedy backtracking) a non-empty run of non-LineTerminator
characters ending at a line end.
-/

/-- Index and value of the last non-LineTerminator character of a list
(used for the backtracking case in which the whitespace run swallowed the
whole remainder of the line). -/
def lastNonLTAux (best : Option (Nat × Char)) (i : Nat) : List Char → Option (Nat × Char)
  | [] => best
  | c :: rest => lastNonLTAux (if isLineTerm c then best else some (i, c)) (i + 1) rest

/-- Greedy match of `(#{1,6})\s+(.+)$` at the head of `l`; returns the
full match length and the `(.+)` capture group. -/
def matchHeadingAt (l : List Char) : Option (Nat × List Char) :=
  let h := takeRun (fun c => decide (c = '#')) l
  let r := h.1.length
  if r < 1 || 6 < r then none
  else
    let w := takeRun isSpaceJS h.2
    let m := w.1.length
    if m < 1 then none
    else
      let t := takeRun notLT w.2
      if t.1.isEmpty then
        match lastNonLTAux none 0 w.1 with
        | some (j, c) => if 1 ≤ j then some (r + j + 1, [c]) else none
        | none => none
      else some (r + m + t.1.length, t.1)

/-- `matchAll` for `HEADING_RX`: the list of `(index, length, group 2)`
triples of the successive non-overlapping matches.  `atLS` records
whether the current position is a multiline `^` anchor; after a match it
is false because a match always ends in a non-LineTerminator character.
The fuel argument is the input length; every step consumes at least one
character. -/
def headingMatchesAux : Nat → Bool → Nat → List Char → List (Nat × Nat × List Char)
  | 0, _, _, _ => []
  | _ + 1, _, _, [] => []
  | fuel + 1, atLS, pos, c :: rest =>
    match (if atLS then matchHeadingAt (c :: rest) else none) with
    | some (n, g) => (pos, n, g) :: headingMatchesAux fuel false (pos + n) (rest.drop (n - 1))
    | none => headingMatchesAux fuel (isLineTerm c) (pos + 1) rest

def headingMatches (md : List Char) : List (Nat × Nat × List Char) :=
  headingMatchesAux md.length true 0 md

/-- Source: `type Section = { heading: string; body: string; lessonUrls: string[] }`. -/
structure Section where
  heading : List Char
  body : List Char
  lessonUrls : List (List Char)
  deriving DecidableEq, Repr

/-- The loop body of `parseSections`: for match `i` the body runs from
the end of the match to the start of the next match (or end of document),
the heading is the trimmed capture group, and the lesson links of
heading and body are de-duplicated in first-seen order. -/
def buildSections (md : List Char) : List (Nat × Nat × List Char) → List Section
  | [] => []
  | (i, n, g) :: rest =>
    let e := match rest with
      | [] => md.length
      | (i2, _, _) :: _ => i2
    let heading := trim g
    let body := sliceCL md (i + n) e
    { heading := heading
      body := body
      lessonUrls := dedupFirst (lessonMatches heading ++ lessonMatches body) }
    :: buildSections md rest

/-- Source: `parseSections` (lines 594-610). -/
def parseSections (md : List Char) : List Section := buildSections md (headingMatches md)

/-- The `"ebo" | "essay"` entity tag. -/
inductive Entity where
  | ebo
  | essay
  deriving DecidableEq, Repr

/-- Source: `pickSectionsForEntity` (lines 612-619, third evolution): the
haystack is `norm(heading + "\n" + body)`, EBO sections are those whose
haystack matches the EBO pattern, essay sections those matching the essay
pattern but not the EBO pattern. -/
def pickSectionsForEntity (sections : List Section) (entity : Entity) : List Section :=
  sections.filter fun s =>
    let hay := normQ (s.heading ++ '\n' :: s.body)
    let hasEBO := testPat eboPat hay
    let hasEssay := testPat essayPat hay
    match entity with
    | Entity.ebo => hasEBO
    | Entity.essay => hasEssay && !hasEBO

/-! ## Deterministic due/penalty extractor (lines 79-123 and 621-665) -/

/-- Alternation over a list of sub-patterns. -/
def pAltList (pats : List (K → K)) (k : K) : K := fun prev l =>
  pats.any fun p => p k prev l

/-- Alternation over a list of literal words. -/
def pStrAlt (ws : List String) (k : K) : K := fun prev l =>
  ws.any fun w => pStr w k prev l

/-- The weekday alternatives of `DATEISH`, in source order. -/
def weekdayStrs : List String :=
  ["monday", "tuesday", "wednesday", "thursday", "friday", "saturday", "sunday"]

/-- The month alternatives of `DATEISH`, in source order. -/
def monthStrs : List String :=
  ["jan", "feb", "mar", "apr", "may", "jun", "jul", "aug", "sep", "sept",
   "oct", "nov", "dec", "january", "february", "march", "april", "june",
   "july", "august", "september", "october", "november", "december"]

/-- The `DATEISH` regex (lines 624-625): weekday, month, one-or-two-digit
number with optional ordinal suffix, four-digit year, or HH:MM am/pm
time, all with the `i` flag. -/
def dateishPat : K → K :=
  pAltList
    [ pWb ∘ pStrAlt weekdayStrs ∘ pWb
    , pWb ∘ pStrAlt monthStrs ∘ pWb
    , pWb ∘ pCls Char.isDigit ∘ pOpt (pCls Char.isDigit) ∘
        pOpt (pStrAlt ["st", "nd", "rd", "th"]) ∘ pWb
    , pWb ∘ pCls Char.isDigit ∘ pCls Char.isDigit ∘ pCls Char.isDigit ∘
        pCls Char.isDigit ∘ pWb
    , pWb ∘ pCls Char.isDigit ∘ pOpt (pCls Char.isDigit) ∘ pChar ':' ∘
        pCls Char.isDigit ∘ pCls Char.isDigit ∘ pStarCls isSpaceJS ∘
        pStrAlt ["am", "pm"] ∘ pWb ]

def dateish (s : List Char) : Bool := testPat dateishPat s

/-- Regex `\b(due|deadline)\b` with the `i` flag. -/
def duePat : K → K := pWb ∘ pAlt (pStr "due") (pStr "deadline") ∘ pWb

/-- Source: `looksLikeDueLine` (lines 83-85 and 627-629): a due/deadline
keyword together with at least one date-ish token. -/
def looksLikeDueLine (s : List Char) : Bool :=
  testPat duePat s && dateish s

/-- Regex `\b(late|penalt(y|ies)|submit|submissions?)\b` with the `i`
flag (line 631). -/
def penaltyPat : K → K :=
  pWb ∘ pAltList
    [ pStr "late"
    , pStr "penalt" ∘ pAlt (pStr "y") (pStr "ies")
    , pStr "submit"
    , pStr "submission" ∘ pOpt (pChar 's') ] ∘ pWb

/-- Source: `looksLikePenaltyOrSubmitLine` (line 631). -/
def looksLikePenaltyOrSubmitLine (s : List Char) : Bool :=
  testPat penaltyPat s

/-- Matcher for `(\d+)\^([a-z]{1,4})\^` (flags `gi`) at one position:
digits, a caret, one to four letters, a caret; the replacement `$1$2`
keeps digits and letters and drops the carets.  Returns the replacement
and the number of characters consumed after the leading digit. -/
def sup1Match (c : Char) (rest : List Char) : Option (List Char × Nat) :=
  if c.isDigit then
    let d := takeRun Char.isDigit rest
    match d.2 with
    | '^' :: r2 =>
      let ls := takeRunMax Char.isAlpha 4 r2
      match ls.2 with
      | '^' :: _ =>
        if ls.1.isEmpty then none
        else some ((c :: d.1) ++ ls.1, d.1.length + 1 + ls.1.length + 1)
      | _ => none
    | _ => none
  else none

/-- Matcher for `\^([^^\s]{1,10})\^` (flag `g`) at one position: a caret,
one to ten characters that are neither caret nor whitespace, a caret; the
replacement `$1` keeps the inner run. -/
def sup2Match (c : Char) (rest : List Char) : Option (List Char × Nat) :=
  if c = '^' then
    let inner := takeRunMax (fun x => !decide (x = '^') && !isSpaceJS x) 10 rest
    match inner.2 with
    | '^' :: _ =>
      if inner.1.isEmpty then none
      else some (inner.1, inner.1.length + 1)
    | _ => none
  else none

/-- `String.prototype.replace` with a `g` regex: scan left to right; at a
match emit the replacement and continue after the match, otherwise emit
the character and move on.  The fuel argument is the input length; when
it runs out the remainder is emitted unchanged (unreachable for fuel at
least the input length, since every step consumes a character). -/
def replaceScanF (m : Char → List Char → Option (List Char × Nat)) :
    Nat → List Char → List Char
  | 0, l => l
  | _ + 1, [] => []
  | fuel + 1, c :: rest =>
    match m c rest with
    | some (rep, k) => rep ++ replaceScanF m fuel (rest.drop k)
    | none => c :: replaceScanF m fuel rest

def replaceScan (m : Char → List Char → Option (List Char × Nat))
    (l : List Char) : List Char :=
  replaceScanF m l.length l

/-- Source: `cleanupSuperscripts` (lines 88-92, first evolution): first
rewrite `8^th^`-style markup to `8th`, then strip any remaining
caret-delimited run. -/
def cleanupSuperscripts (s : List Char) : List Char :=
  replaceScan sup2Match (replaceScan sup1Match s)

/-- The due-line search loop shared by both extractor evolutions: the
first line whose trimmed text is non-empty and satisfies
`looksLikeDueLine`, together with its index and the lines after it. -/
def findDue : Nat → List (List Char) → Option (Nat × List Char × List (List Char))
  | _, [] => none
  | i, l :: rest =>
    if !(trim l).isEmpty && looksLikeDueLine (trim l) then some (i, l, rest)
    else findDue (i + 1) rest

/-- The continuation loop of the first evolution's extractor (lines
113-117): up to `k` further lines, stopping at the first blank line, each
trimmed at the end and superscript-cleaned. -/
def takeNonBlankV1 : Nat → List (List Char) → List (List Char)
  | 0, _ => []
  | _, [] => []
  | k + 1, l :: rest =>
    if (trim l).isEmpty then []
    else cleanupSuperscripts (trimEnd l) :: takeNonBlankV1 k rest

/-- The trailing-blank pop loop (line 120): drop trailing entries whose
trimmed text is empty. -/
def popTrailingBlank : List (List Char) → List (List Char)
  | [] => []
  | x :: rest =>
    match popTrailingBlank rest with
    | [] => if (trim x).isEmpty then [] else [x]
    | y :: ys => x :: y :: ys

/-- Source: `extractDueBlockFrom`, first evolution (lines 98-123), as the
list of block lines: the cleaned trimmed due line, then up to 11 further
non-blank lines (the buf cap is 12 lines total), with trailing blank
entries popped. -/
def extract1Lines (text : List Char) : Option (List (List Char)) :=
  match findDue 0 (splitLines text) with
  | none => none
  | some (_, l, after) =>
    some (popTrailingBlank (cleanupSuperscripts (trim l) :: takeNonBlankV1 11 after))

/-- Source: `extractDueBlockFrom`, first evolution, joined with `"\n"` as
in `buf.join("\n")`. -/
def extractDueBlockFrom (text : List Char) : Option (List Char) :=
  (extract1Lines text).map (List.intercalate ['\n'])

/-- The continuation loop of the third evolution's extractor (lines
653-662): stop at a blank line, otherwise push the line when it is a
penalty/submit line, carries a date-ish token, or (the always-true third
disjunct of the source condition) has non-empty trimmed text. -/
def takeNonBlankV3 : Nat → List (List Char) → List (List Char)
  | 0, _ => []
  | _, [] => []
  | k + 1, l :: rest =>
    if (trim l).isEmpty then []
    else if looksLikePenaltyOrSubmitLine l || dateish l || decide (0 < (trim l).length) then
      trimEnd l :: takeNonBlankV3 k rest
    else []

/-- Source: `extractDueBlockFrom`, third evolution (lines 638-665), as
the list of block lines: the trimmed due line, then up to 8 further lines
(the buf cap is 9 lines total). -/
def extract3Lines (text : List Char) : Option (List (List Char)) :=
  match findDue 0 (splitLines text) with
  | none => none
  | some (_, l, after) => some (trim l :: takeNonBlankV3 8 after)

/-- Source: `extractDueBlockFrom`, third evolution, joined with `"\n"`. -/
def extractDueBlockFromV3 (text : List Char) : Option (List Char) :=
  (extract3Lines text).map (List.intercalate ['\n'])

/-! ## Response assembly and analytics (serve handler, lines 722-816)

Every handler path builds a result string, then runs the optional
Qualtrics analytics call, and returns
`new Response(result + "\n<!-- " + qualtricsStatus + " -->")` with the
default status 200.  The analytics call has three outcomes: not
configured (`"Qualtrics not called"`), a completed fetch
(`"Qualtrics status: <code>"`), or a thrown error (`"Qualtrics error"`).
-/

inductive QualtricsOutcome where
  | notConfigured
  | success (status : Nat)
  | failure
  deriving DecidableEq, Repr

/-- The `qualtricsStatus` string for each analytics outcome (lines
753-762 and 802-811). -/
def qualtricsStatusText : QualtricsOutcome → List Char
  | QualtricsOutcome.notConfigured => cs "Qualtrics not called"
  | QualtricsOutcome.success st => cs "Qualtrics status: " ++ Nat.toDigits 10 st
  | QualtricsOutcome.failure => cs "Qualtrics error"

/-- The body of the returned `Response`:
`` `${result}\n<!-- ${qualtricsStatus} -->` `` (lines 764, 814). -/
def finalResponseBody (result : List Char) (o : QualtricsOutcome) : List Char :=
  result ++ cs "\n<!-- " ++ qualtricsStatusText o ++ cs " -->"

/-- The HTTP status of the returned `Response`: `new Response` with no
`status` option defaults to 200 on every analytics outcome. -/
def finalResponseStatus (_result : List Char) (_o : QualtricsOutcome) : Nat := 200

/-! ## Spec-side predicates used only in claim statements -/

/-- A heading-marker line in the sense of the specification: a line
beginning with one to six `#` characters followed by whitespace and
text. -/
def isHeadingMarkerLine (l : List Char) : Bool :=
  let h := takeRun (fun c => decide (c = '#')) l
  decide (1 ≤ h.1.length) && decide (h.1.length ≤ 6) &&
  (match h.2 with
   | [] => false
   | c :: _ => isSpaceJS c) &&
  !(trim h.2).isEmpty

/-- Standalone-word occurrence: the word with a boundary on both sides. -/
def hasWholeWord (w : String) (s : List Char) : Bool :=
  testPat (pWb ∘ pStr w ∘ pWb) s

/-- Substring containment of character lists (needle, then haystack). -/
def containsSub (needle : List Char) : List Char → Bool
  | [] => (stripExact needle []).isSome
  | c :: rest => (stripExact needle (c :: rest)).isSome || containsSub needle rest

/-- No position of `s` matches the replacement pattern `m`. -/
def matchesNowhere (m : Char → List Char → Option (List Char × Nat)) :
    List Char → Bool
  | [] => true
  | c :: rest => (m c rest).isNone && matchesNowhere m rest

/-- The input contains no caret-delimited superscript markup: neither
cleanup pattern matches at any position. -/
def hasNoSuperscriptMarkup (s : List Char) : Bool :=
  matchesNowhere sup1Match s && matchesNowhere sup2Match s

/-- Concatenation, over a heading-match list, of each full matched
heading text with the corresponding section body (the body of match `i`
runs to the start of match `i+1`, the last one to end of document). -/
def sectionsConcat (md : List Char) : List (Nat × Nat × List Char) → List Char
  | [] => []
  | (i, n, _) :: rest =>
    let e := match rest with
      | [] => md.length
      | (i2, _, _) :: _ => i2
    sliceCL md i (i + n) ++ sliceCL md (i + n) e ++ sectionsConcat md rest

/-- The matches are ordered: each starts no earlier than `lo` and each
later match starts after the previous match ends. -/
def Chained : Nat → List (Nat × Nat × List Char) → Prop
  | _, [] => True
  | lo, m :: rest => lo ≤ m.1 ∧ Chained (m.1 + m.2.1) rest

/-! ## Helper lemmas -/

theorem takeRun_append (p : Char → Bool) : ∀ l : List Char,
    (takeRun p l).1 ++ (takeRun p l).2 = l := by
  intro l
  induction l with
  | nil => rfl
  | cons c rest ih =>
    simp only [takeRun]
    by_cases h : p c = true
    · simp [h, ih]
    · simp [h]

theorem matchesNowhere_replaceScanF (m : Char → List Char → Option (List Char × Nat)) :
    ∀ (fuel : Nat) (l : List Char), matchesNowhere m l = true →
    replaceScanF m fuel l = l := by
  intro fuel
  induction fuel with
  | zero => intro l _; rfl
  | succ fuel ih =>
    intro l h
    cases l with
    | nil => rfl
    | cons c rest =>
      simp only [matchesNowhere, Bool.and_eq_true] at h
      simp only [replaceScanF]
      cases hm : m c rest with
      | some v => rw [hm] at h; simp at h
      | none => rw [ih rest h.2]

theorem cleanupSuperscripts_id (s : List Char) (h : hasNoSuperscriptMarkup s = true) :
    cleanupSuperscripts s = s := by
  rw [hasNoSuperscriptMarkup, Bool.and_eq_true] at h
  unfold cleanupSuperscripts replaceScan
  rw [matchesNowhere_replaceScanF _ _ _ h.1, matchesNowhere_replaceScanF _ _ _ h.2]

theorem popTrailingBlank_cases (x : List Char) (rest : List (List Char)) :
    popTrailingBlank (x :: rest) = [] ∨
    ∃ ys, popTrailingBlank (x :: rest) = x :: ys := by
  simp only [popTrailingBlank]
  cases popTrailingBlank rest with
  | nil =>
    by_cases h : (trim x).isEmpty = true
    · left; simp [h]
    · right; exact ⟨[], by simp [h]⟩
  | cons y ys => right; exact ⟨y :: ys, rfl⟩

theorem popTrailingBlank_mem : ∀ (l : List (List Char)) (x : List Char),
    x ∈ popTrailingBlank l → x ∈ l := by
  intro l
  induction l with
  | nil => intro x h; simp [popTrailingBlank] at h
  | cons a rest ih =>
    intro x h
    simp only [popTrailingBlank] at h
    cases hp : popTrailingBlank rest with
    | nil =>
      rw [hp] at h
      by_cases ha : (trim a).isEmpty = true
      · rw [if_pos ha] at h; cases h
      · rw [if_neg ha] at h
        rcases List.mem_singleton.1 h with rfl
        exact List.mem_cons_self _ _
    | cons y ys =>
      rw [hp] at h
      rcases List.mem_cons.1 h with rfl | h'
      · exact List.mem_cons_self _ _
      · exact List.mem_cons_of_mem _ (ih x (hp ▸ h'))

theorem findDue_spec : ∀ (ls : List (List Char)) (i idx : Nat) (l : List Char)
    (after : List (List Char)), findDue i ls = some (idx, l, after) →
    ∃ k, idx = i + k ∧ ls[k]? = some l ∧ after = ls.drop (k + 1) ∧
      (trim l).isEmpty = false ∧ looksLikeDueLine (trim l) = true := by
  intro ls
  induction ls with
  | nil => intro i idx l after h; simp [findDue] at h
  | cons x rest ih =>
    intro i idx l after h
    simp only [findDue] at h
    split at h
    · rename_i hcond
      simp only [Option.some.injEq, Prod.mk.injEq] at h
      obtain ⟨rfl, rfl, rfl⟩ := h
      rw [Bool.and_eq_true, Bool.not_eq_true'] at hcond
      exact ⟨0, by omega, by simp, by simp, hcond.1, hcond.2⟩
    · obtain ⟨k, hk, h1, h2, h3, h4⟩ := ih (i + 1) idx l after h
      refine ⟨k + 1, by omega, by simpa using h1, ?_, h3, h4⟩
      simp only [List.drop_succ_cons]
      exact h2

theorem takeNonBlankV1_mem : ∀ (ls : List (List Char)) (k : Nat) (x : List Char),
    x ∈ takeNonBlankV1 k ls →
    ∃ (j : Nat) (r : List Char), ls[j]? = some r ∧
      x = cleanupSuperscripts (trimEnd r) ∧
      ∀ (i : Nat) (r' : List Char), i ≤ j → ls[i]? = some r' →
        (trim r').isEmpty = false := by
  intro ls
  induction ls with
  | nil => intro k x h; cases k <;> simp [takeNonBlankV1] at h
  | cons l rest ih =>
    intro k x h
    cases k with
    | zero => simp [takeNonBlankV1] at h
    | succ k =>
      simp only [takeNonBlankV1] at h
      split at h
      · cases h
      · rename_i hbl
        rcases List.mem_cons.1 h with rfl | h'
        · refine ⟨0, l, by simp, rfl, ?_⟩
          intro i r' hi hg
          interval_cases i
          simp only [List.getElem?_cons_zero, Option.some.injEq] at hg
          rw [← hg]
          exact Bool.eq_false_iff.2 hbl
        · obtain ⟨j, r, h1, h2, h3⟩ := ih k x h'
          refine ⟨j + 1, r, by simpa using h1, h2, ?_⟩
          intro i r' hi hg
          cases i with
          | zero =>
            simp only [List.getElem?_cons_zero, Option.some.injEq] at hg
            rw [← hg]
            exact Bool.eq_false_iff.2 hbl
          | succ i' =>
            exact h3 i' r' (by omega) (by simpa using hg)

theorem lastNonLTAux_lt : ∀ (w : List Char) (best : Option (Nat × Char)) (i j : Nat)
    (c : Char), (∀ p q, best = some (p, q) → p < i) →
    lastNonLTAux best i w = some (j, c) → j < i + w.length := by
  intro w
  induction w with
  | nil =>
    intro best i j c hb h
    simp only [lastNonLTAux] at h
    have := hb j c h
    omega
  | cons x rest ih =>
    intro best i j c hb h
    simp only [lastNonLTAux] at h
    have hb' : ∀ p q, (if isLineTerm x = true then best else some (i, x)) = some (p, q) →
        p < i + 1 := by
      intro p q hpq
      by_cases hx : isLineTerm x = true
      · rw [if_pos hx] at hpq; exact Nat.lt_succ_of_lt (hb p q hpq)
      · rw [if_neg hx] at hpq
        simp only [Option.some.injEq, Prod.mk.injEq] at hpq
        omega
    have := ih _ _ _ _ hb' h
    simp only [List.length_cons]
    omega

theorem matchHeadingAt_bounds (l : List Char) (n : Nat) (g : List Char)
    (h : matchHeadingAt l = some (n, g)) : 1 ≤ n ∧ n ≤ l.length := by
  have e1 := takeRun_append (fun c => decide (c = '#')) l
  have e2 := takeRun_append isSpaceJS (takeRun (fun c => decide (c = '#')) l).2
  have e3 := takeRun_append notLT
    (takeRun isSpaceJS (takeRun (fun c => decide (c = '#')) l).2).2
  have L1 : (takeRun (fun c => decide (c = '#')) l).1.length +
      (takeRun (fun c => decide (c = '#')) l).2.length = l.length := by
    have := congrArg List.length e1
    simpa using this
  have L2 : (takeRun isSpaceJS (takeRun (fun c => decide (c = '#')) l).2).1.length +
      (takeRun isSpaceJS (takeRun (fun c => decide (c = '#')) l).2).2.length =
      (takeRun (fun c => decide (c = '#')) l).2.length := by
    have := congrArg List.length e2
    simpa using this
  have L3 : (takeRun notLT (takeRun isSpaceJS
        (takeRun (fun c => decide (c = '#')) l).2).2).1.length +
      (takeRun notLT (takeRun isSpaceJS
        (takeRun (fun c => decide (c = '#')) l).2).2).2.length =
      (takeRun isSpaceJS (takeRun (fun c => decide (c = '#')) l).2).2.length := by
    have := congrArg List.length e3
    simpa using this
  simp only [matchHeadingAt] at h
  split at h
  · cases h
  · rename_i hc1
    split at h
    · cases h
    · rename_i hc2
      split at h
      · rename_i hemp
        cases hlast : lastNonLTAux none 0
            (takeRun isSpaceJS (takeRun (fun c => decide (c = '#')) l).2).1 with
        | none => rw [hlast] at h; cases h
        | some jc =>
          rw [hlast] at h
          obtain ⟨j, c⟩ := jc
          split at h
          · rename_i j2 c2 hj
            simp only [Option.some.injEq, Prod.mk.injEq] at hj
            obtain ⟨hj1, hj2⟩ := hj
            subst hj1
            subst hj2
            split at h
            · rename_i hone
              simp only [Option.some.injEq, Prod.mk.injEq] at h
              have hlt := lastNonLTAux_lt _ none 0 j c
                (by intro p q hpq; cases hpq) hlast
              simp only [Bool.or_eq_true, decide_eq_true_eq, not_or] at hc1
              omega
            · cases h
          · cases h
      · rename_i hemp
        simp only [Option.some.injEq, Prod.mk.injEq] at h
        simp only [Bool.or_eq_true, decide_eq_true_eq, not_or] at hc1
        omega

theorem Chained_mono : ∀ (ms : List (Nat × Nat × List Char)) (a b : Nat),
    a ≤ b → Chained b ms → Chained a ms := by
  intro ms a b hab h
  cases ms with
  | nil => trivial
  | cons m rest => exact ⟨Nat.le_trans hab h.1, h.2⟩

theorem headingMatchesAux_props : ∀ (fuel : Nat) (atLS : Bool) (pos : Nat) (l : List Char),
    Chained pos (headingMatchesAux fuel atLS pos l) ∧
    ∀ m ∈ headingMatchesAux fuel atLS pos l, m.1 + m.2.1 ≤ pos + l.length := by
  intro fuel
  induction fuel with
  | zero =>
    intro atLS pos l
    constructor
    · exact trivial
    · intro m hm; cases hm
  | succ fuel ih =>
    intro atLS pos l
    cases l with
    | nil =>
      constructor
      · exact trivial
      · intro m hm; cases hm
    | cons c rest =>
      simp only [headingMatchesAux]
      cases hm : (if atLS = true then matchHeadingAt (c :: rest) else none) with
      | none =>
        have hr := ih (isLineTerm c) (pos + 1) rest
        constructor
        · exact Chained_mono _ _ _ (Nat.le_succ pos) hr.1
        · intro m hmem
          have := hr.2 m hmem
          simp only [List.length_cons]
          omega
      | some ng =>
        obtain ⟨n, g⟩ := ng
        have hbnd : 1 ≤ n ∧ n ≤ rest.length + 1 := by
          by_cases hLS : atLS = true
          · rw [if_pos hLS] at hm
            have := matchHeadingAt_bounds _ _ _ hm
            simpa using this
          · rw [if_neg hLS] at hm; cases hm
        have hr := ih false (pos + n) (rest.drop (n - 1))
        constructor
        · exact ⟨Nat.le_refl pos, hr.1⟩
        · intro m hmem
          rcases List.mem_cons.1 hmem with rfl | hmem'
          · simp only [List.length_cons]
            omega
          · have h1 := hr.2 m hmem'
            have h2 : (rest.drop (n - 1)).length = rest.length - (n - 1) :=
              List.length_drop _ _
            simp only [List.length_cons]
            omega

theorem sliceCL_glue (l : List Char) (a b c : Nat) (hab : a ≤ b) (hbc : b ≤ c)
    (hal : a ≤ l.length) : sliceCL l a b ++ sliceCL l b c = sliceCL l a c := by
  unfold sliceCL
  have h1 : l.take c = l.take b ++ (l.take c).drop b := by
    conv_lhs => rw [← List.take_append_drop b (l.take c)]
    rw [List.take_take, Nat.min_eq_left hbc]
  conv_rhs => rw [h1]
  rw [List.drop_append_of_le_length]
  simp only [List.length_take]
  omega

theorem sliceCL_to_end (l : List Char) (a : Nat) : sliceCL l a l.length = l.drop a := by
  unfold sliceCL
  rw [List.take_length]

theorem sectionsConcat_eq (md : List Char) : ∀ (ms : List (Nat × Nat × List Char))
    (a : Nat), Chained a ms → (∀ m ∈ ms, m.1 + m.2.1 ≤ md.length) →
    sectionsConcat md ms =
      md.drop (match ms with | [] => md.length | m :: _ => m.1) := by
  intro ms
  induction ms with
  | nil =>
    intro a _ _
    simp [sectionsConcat, List.drop_length]
  | cons m rest ih =>
    intro a hch hbd
    obtain ⟨i, n, g⟩ := m
    have hin : i + n ≤ md.length := hbd _ (List.mem_cons_self _ _)
    have hch2 : Chained (i + n) rest := hch.2
    cases rest with
    | nil =>
      simp only [sectionsConcat, List.append_nil]
      rw [sliceCL_glue md i (i + n) md.length (by omega) (by omega) (by omega),
        sliceCL_to_end]
    | cons m2 rest2 =>
      obtain ⟨i2, n2, g2⟩ := m2
      have hi2 : i + n ≤ i2 := hch2.1
      have hi2n : i2 + n2 ≤ md.length :=
        hbd _ (List.mem_cons_of_mem _ (List.mem_cons_self _ _))
      have ihr := ih (i + n) hch2 (fun m hm => hbd m (List.mem_cons_of_mem _ hm))
      simp only [sectionsConcat] at ihr ⊢
      rw [ihr, ← sliceCL_to_end md i2, List.append_assoc,
        sliceCL_glue md (i + n) i2 md.length hi2 (by omega) (by omega),
        sliceCL_glue md i (i + n) md.length (by omega) (by omega) (by omega),
        sliceCL_to_end]

theorem buildSections_length (md : List Char) : ∀ ms : List (Nat × Nat × List Char),
    (buildSections md ms).length = ms.length := by
  intro ms
  induction ms with
  | nil => rfl
  | cons m rest ih =>
    obtain ⟨i, n, g⟩ := m
    simp only [buildSections, List.length_cons, ih]

/-! ## Claim theorems -/

/-- C1: for every query string `q`, the handler's routing gate selects
exactly one of the three routes: redirect iff (EBO or exclusive-essay
mention) and instruction intent and not logistics intent; deterministic
iff not redirected and logistics intent and an entity mention; every
remaining query falls back to the model.  Totality is inherent in `route`
being a function into the three-valued `Route`, and the three
biconditionals give mutual exclusivity. -/
theorem routing_policy_total_exclusive :
    ∀ q : List Char,
      (route q = Route.redirect ↔
        ((mentionsEBO q || mentionsEssayOnly q) && hasInstructionIntent q &&
          !hasLogisticsIntent q) = true) ∧
      (route q = Route.deterministic ↔
        (route q ≠ Route.redirect ∧
          (hasLogisticsIntent q && (mentionsEBO q || mentionsEssayOnly q)) = true)) ∧
      (route q = Route.fallback ↔
        (route q ≠ Route.redirect ∧ route q ≠ Route.deterministic)) := by
  intro q
  cases hM : (mentionsEBO q || mentionsEssayOnly q) <;>
    cases hL : hasLogisticsIntent q <;>
      cases hI : hasInstructionIntent q <;>
        simp [route, shouldRouteToEboEssayBot, hM, hL, hI]

/-- C2 (counterexample): the analytics outcome changes the HTTP response
text: for the same result string, the not-configured and failure outcomes
produce different response bodies (the status code is unchanged). -/
theorem analytics_affects_response_text :
    finalResponseBody (cs "r") QualtricsOutcome.notConfigured ≠
      finalResponseBody (cs "r") QualtricsOutcome.failure ∧
    finalResponseStatus (cs "r") QualtricsOutcome.notConfigured =
      finalResponseStatus (cs "r") QualtricsOutcome.failure := by
  decide

/-- C2 (amended): the analytics outcome never affects the HTTP status
code, and affects the response text only inside the trailing
`<!-- ... -->` comment: the body up to and including the comment opener
is identical across outcomes, and every body has the shape
`result + "\n<!-- " + status + " -->"`. -/
theorem analytics_only_in_comment :
    ∀ (result : List Char) (o₁ o₂ : QualtricsOutcome),
      finalResponseStatus result o₁ = finalResponseStatus result o₂ ∧
      (finalResponseBody result o₁).take (result.length + 6) =
        (finalResponseBody result o₂).take (result.length + 6) ∧
      ∃ s : List Char, finalResponseBody result o₁ =
        result ++ cs "\n<!-- " ++ (s ++ cs " -->") := by
  intro result o₁ o₂
  have h6 : (cs "\n<!-- ").length = 6 := by decide
  have hlen : ∀ o : QualtricsOutcome, (finalResponseBody result o).take
      (result.length + 6) = result ++ cs "\n<!-- " := by
    intro o
    unfold finalResponseBody
    rw [List.append_assoc (result ++ cs "\n<!-- ") (qualtricsStatusText o) (cs " -->")]
    have hl : result.length + 6 = (result ++ cs "\n<!-- ").length := by
      rw [List.length_append, h6]
    rw [hl, List.take_left]
  refine ⟨rfl, ?_, ⟨qualtricsStatusText o₁, ?_⟩⟩
  · rw [hlen o₁, hlen o₂]
  · unfold finalResponseBody
    rw [List.append_assoc (result ++ cs "\n<!-- ") (qualtricsStatusText o₁) (cs " -->")]

/-- C3 (counterexample): for a section whose due-line block is followed,
after a blank line, by an extension/accommodation paragraph (here
containing the keyword `medical`), the extractor's returned block is just
the due line: the extension paragraph is not appended. -/
theorem extension_paragraph_not_appended :
    extract1Lines
      (cs "Due Friday, March 14.\n\nContact the instructor for medical accommodations.") =
      some [cs "Due Friday, March 14."] ∧
    containsSub (cs "medical")
      (cs "Contact the instructor for medical accommodations.") = true ∧
    containsSub (cs "Contact the instructor for medical accommodations.")
      (List.intercalate (cs "\n") [cs "Due Friday, March 14."]) = false := by
  decide

/-- C3 (amended): every line of the returned block is either the found
due line or one of the lines of the contiguous non-blank run immediately
after it: every other returned line comes from an index `j` past the due
line such that all lines from just after the due line up to `j` have
non-empty trimmed text.  Paragraphs separated from the block by a blank
line, such as extension/accommodation paragraphs elsewhere in the
section, are never appended. -/
theorem block_is_contiguous_after_due_line :
    ∀ (text : List Char) (b : List (List Char)), extract1Lines text = some b →
    ∃ (start : Nat) (l : List Char), (splitLines text)[start]? = some l ∧
      looksLikeDueLine (trim l) = true ∧
      ∀ x ∈ b, x = cleanupSuperscripts (trim l) ∨
        ∃ (j : Nat) (r : List Char), start < j ∧ (splitLines text)[j]? = some r ∧
          x = cleanupSuperscripts (trimEnd r) ∧
          ∀ (i : Nat) (r' : List Char), start < i → i ≤ j →
            (splitLines text)[i]? = some r' → (trim r').isEmpty = false := by
  intro text b h
  unfold extract1Lines at h
  cases hfd : findDue 0 (splitLines text) with
  | none => rw [hfd] at h; cases h
  | some v =>
    obtain ⟨idx, l, after⟩ := v
    rw [hfd] at h
    simp only [Option.some.injEq] at h
    obtain ⟨k, hk, hget, hafter, hne, hdue⟩ := findDue_spec _ 0 idx l after hfd
    refine ⟨k, l, hget, hdue, ?_⟩
    intro x hx
    rw [← h] at hx
    have hx' := popTrailingBlank_mem _ _ hx
    rcases List.mem_cons.1 hx' with rfl | hx''
    · exact Or.inl rfl
    · right
      obtain ⟨j, r, h1, h2, h3⟩ := takeNonBlankV1_mem after 11 x hx''
      rw [hafter, List.getElem?_drop] at h1
      refine ⟨k + 1 + j, r, by omega, h1, h2, ?_⟩
      intro i r' hi1 hi2 hir
      apply h3 (i - (k + 1)) r' (by omega)
      rw [hafter, List.getElem?_drop]
      have heq : k + 1 + (i - (k + 1)) = i := by omega
      rw [heq]
      exact hir

/-- C3 (witness): a concrete instantiation of the amended theorem. -/
theorem block_is_contiguous_after_due_line_witness :
    extract1Lines (cs "due friday 2025") = some [cs "due friday 2025"] ∧
    (∃ (start : Nat) (l : List Char),
      (splitLines (cs "due friday 2025"))[start]? = some l ∧
      looksLikeDueLine (trim l) = true ∧
      ∀ x ∈ [cs "due friday 2025"], x = cleanupSuperscripts (trim l) ∨
        ∃ (j : Nat) (r : List Char), start < j ∧
          (splitLines (cs "due friday 2025"))[j]? = some r ∧
          x = cleanupSuperscripts (trimEnd r) ∧
          ∀ (i : Nat) (r' : List Char), start < i → i ≤ j →
            (splitLines (cs "due friday 2025"))[i]? = some r' →
              (trim r').isEmpty = false) :=
  ⟨by decide, block_is_contiguous_after_due_line (cs "due friday 2025")
    [cs "due friday 2025"] (by decide)⟩

/-- C4 (counterexample): for a section in which the first genuine due
line has a non-blank line immediately above it, the extractor's returned
block does not include the preceding line: there is no upward
extension. -/
theorem preceding_lines_not_included :
    extract1Lines (cs "Assignment one.\nIt is due Friday, March 14.") =
      some [cs "It is due Friday, March 14."] ∧
    (trim (cs "Assignment one.")).isEmpty = false ∧
    looksLikeDueLine (trim (cs "Assignment one.")) = false ∧
    looksLikeDueLine (trim (cs "It is due Friday, March 14.")) = true ∧
    containsSub (cs "Assignment one.")
      (List.intercalate (cs "\n") [cs "It is due Friday, March 14."]) = false := by
  decide

/-- C4 (amended): the captured block starts at the found due line and
extends only downward: when non-empty, its first line is the
superscript-cleaned trimmed due line, and every line of the block is
either that line or comes from a line strictly below it; lines above the
found line are never included. -/
theorem block_starts_at_due_line :
    ∀ (text : List Char) (b : List (List Char)), extract1Lines text = some b →
    ∃ (start : Nat) (l : List Char), (splitLines text)[start]? = some l ∧
      (trim l).isEmpty = false ∧ looksLikeDueLine (trim l) = true ∧
      (b = [] ∨ b.head? = some (cleanupSuperscripts (trim l))) ∧
      ∀ x ∈ b, x = cleanupSuperscripts (trim l) ∨
        ∃ (j : Nat) (r : List Char), start < j ∧ (splitLines text)[j]? = some r ∧
          x = cleanupSuperscripts (trimEnd r) := by
  intro text b h
  unfold extract1Lines at h
  cases hfd : findDue 0 (splitLines text) with
  | none => rw [hfd] at h; cases h
  | some v =>
    obtain ⟨idx, l, after⟩ := v
    rw [hfd] at h
    simp only [Option.some.injEq] at h
    obtain ⟨k, hk, hget, hafter, hne, hdue⟩ := findDue_spec _ 0 idx l after hfd
    refine ⟨k, l, hget, hne, hdue, ?_, ?_⟩
    · rcases popTrailingBlank_cases (cleanupSuperscripts (trim l))
        (takeNonBlankV1 11 after) with h0 | ⟨ys, hys⟩
      · left; rw [← h]; exact h0
      · right; rw [← h, hys]; rfl
    · intro x hx
      rw [← h] at hx
      have hx' := popTrailingBlank_mem _ _ hx
      rcases List.mem_cons.1 hx' with rfl | hx''
      · exact Or.inl rfl
      · right
        obtain ⟨j, r, h1, h2, _⟩ := takeNonBlankV1_mem after 11 x hx''
        rw [hafter, List.getElem?_drop] at h1
        exact ⟨k + 1 + j, r, by omega, h1, h2⟩

/-- C4 (witness): a concrete instantiation of the amended theorem. -/
theorem block_starts_at_due_line_witness :
    extract1Lines (cs "due friday 2025") = some [cs "due friday 2025"] ∧
    (∃ (start : Nat) (l : List Char),
      (splitLines (cs "due friday 2025"))[start]? = some l ∧
      (trim l).isEmpty = false ∧ looksLikeDueLine (trim l) = true ∧
      ([cs "due friday 2025"] = ([] : List (List Char)) ∨
        ([cs "due friday 2025"] : List (List Char)).head? =
          some (cleanupSuperscripts (trim l))) ∧
      ∀ x ∈ [cs "due friday 2025"], x = cleanupSuperscripts (trim l) ∨
        ∃ (j : Nat) (r : List Char), start < j ∧
          (splitLines (cs "due friday 2025"))[j]? = some r ∧
          x = cleanupSuperscripts (trimEnd r)) :=
  ⟨by decide, block_starts_at_due_line (cs "due friday 2025")
    [cs "due friday 2025"] (by decide)⟩

/-- C7 (counterexample): the first evolution's extractor can return a
block whose first line fails the genuine due-line predicate: superscript
cleanup on the line `due x^12^x` removes the carets whose word boundaries
made `12` a date-ish token, so the returned first line `due x12x` has no
date-ish token. -/
theorem cleanup_can_break_due_line :
    extract1Lines (cs "due x^12^x") = some [cs "due x12x"] ∧
    looksLikeDueLine (cs "due x12x") = false := by
  decide

/-- C7 (amended): the first line of a returned block satisfies the
genuine due-line predicate up to superscript cleanup: the third
evolution's extractor (which applies no cleanup) always returns a block
whose first line satisfies the predicate as stated, and the first
evolution's extractor returns a block whose first line, when the block is
non-empty, is the superscript cleanup of a trimmed source line satisfying
the predicate. -/
theorem block_head_due_line_up_to_cleanup :
    ∀ text : List Char,
    (∀ b : List (List Char), extract3Lines text = some b →
      ∃ (hd : List Char) (tl : List (List Char)), b = hd :: tl ∧
        looksLikeDueLine hd = true) ∧
    (∀ b : List (List Char), extract1Lines text = some b →
      b = [] ∨ ∃ l : List Char, looksLikeDueLine (trim l) = true ∧
        b.head? = some (cleanupSuperscripts (trim l))) := by
  intro text
  constructor
  · intro b h
    unfold extract3Lines at h
    cases hfd : findDue 0 (splitLines text) with
    | none => rw [hfd] at h; cases h
    | some v =>
      obtain ⟨idx, l, after⟩ := v
      rw [hfd] at h
      simp only [Option.some.injEq] at h
      obtain ⟨k, _, _, _, _, hdue⟩ := findDue_spec _ 0 idx l after hfd
      exact ⟨trim l, takeNonBlankV3 8 after, h.symm, hdue⟩
  · intro b h
    unfold extract1Lines at h
    cases hfd : findDue 0 (splitLines text) with
    | none => rw [hfd] at h; cases h
    | some v =>
      obtain ⟨idx, l, after⟩ := v
      rw [hfd] at h
      simp only [Option.some.injEq] at h
      obtain ⟨k, _, _, _, _, hdue⟩ := findDue_spec _ 0 idx l after hfd
      rcases popTrailingBlank_cases (cleanupSuperscripts (trim l))
        (takeNonBlankV1 11 after) with h0 | ⟨ys, hys⟩
      · left; rw [← h]; exact h0
      · right
        refine ⟨l, hdue, ?_⟩
        rw [← h, hys]
        rfl

/-- C7 (witness): a concrete instantiation of the amended theorem's
third-evolution half. -/
theorem block_head_due_line_up_to_cleanup_witness :
    extract3Lines (cs "due friday 2025") = some [cs "due friday 2025"] ∧
    (∃ (hd : List Char) (tl : List (List Char)),
      [cs "due friday 2025"] = hd :: tl ∧ looksLikeDueLine hd = true) :=
  ⟨by decide, (block_head_due_line_up_to_cleanup (cs "due friday 2025")).1
    [cs "due friday 2025"] (by decide)⟩

/-- C6: `mentionsEBO` and `mentionsEssayOnly` are never both true:
`mentionsEssayOnly` conjoins the essay pattern with the negation of
`mentionsEBO`, so EBO detection takes priority. -/
theorem entity_mentions_mutually_exclusive :
    ∀ q : List Char, (mentionsEBO q && mentionsEssayOnly q) = false := by
  intro q
  cases h : mentionsEBO q <;> simp [mentionsEssayOnly, h]

/-- C8: the extractor is a pure function of the section text in both
evolutions: the embedding is a Lean function with no state, randomness or
external calls, so running it twice on identical text trivially yields
identical output. -/
theorem extractor_deterministic :
    ∀ text : List Char, extractDueBlockFrom text = extractDueBlockFrom text ∧
      extractDueBlockFromV3 text = extractDueBlockFromV3 text :=
  fun _ => ⟨rfl, rfl⟩

/-- C9: superscript cleanup maps `8^th^ grade` to `8th grade`, and is the
identity on every input with no caret-delimited superscript markup (no
position matching either cleanup pattern). -/
theorem cleanup_superscripts_spec :
    cleanupSuperscripts (cs "8^th^ grade") = cs "8th grade" ∧
    ∀ s : List Char, hasNoSuperscriptMarkup s = true → cleanupSuperscripts s = s := by
  constructor
  · decide
  · exact cleanupSuperscripts_id

/-- C9 (witness): a concrete instantiation of the identity half. -/
theorem cleanup_superscripts_spec_witness :
    hasNoSuperscriptMarkup (cs "no markup at all") = true ∧
    cleanupSuperscripts (cs "no markup at all") = cs "no markup at all" :=
  ⟨by decide, cleanup_superscripts_spec.2 (cs "no markup at all") (by decide)⟩

/-- C10: essay detection is prefix-based, not whole-word: the query
`essayist` contains no standalone word `essay` or `essays`, yet
`mentionsEssayOnly` returns true, and the same prefix match makes
`pickSectionsForEntity` select a section whose text contains only
`essayist`. -/
theorem essay_detection_prefix_based :
    mentionsEssayOnly (cs "essayist") = true ∧
    hasWholeWord "essay" (cs "essayist") = false ∧
    hasWholeWord "essays" (cs "essayist") = false ∧
    pickSectionsForEntity
      [{ heading := cs "Essayist", body := cs "essayist", lessonUrls := [] }]
      Entity.essay =
      [{ heading := cs "Essayist", body := cs "essayist", lessonUrls := [] }] := by
  decide

/-- C5 (counterexample): the sectionizer invariant fails.  On
`intro\n# A\nbody` the single section is heading `A` with body `\nbody`,
and concatenating headings plus bodies loses the pre-heading text
`intro`, which contains no heading-marker characters — the sections do
not cover the document.  On `#\nbody` the heading regex `\s+` consumes
the newline, so one section is produced although no line is a
heading-marker line (1-6 `#` followed by whitespace and text), refuting
the one-section-per-heading-marker-line count. -/
theorem sectionizer_coverage_counterexample :
    parseSections (cs "intro\n# A\nbody") =
      [{ heading := cs "A", body := cs "\nbody", lessonUrls := [] }] ∧
    containsSub (cs "intro")
      (List.flatten ((parseSections (cs "intro\n# A\nbody")).map
        (fun s => s.heading ++ s.body))) = false ∧
    containsSub (cs "intro") (cs "intro\n# A\nbody") = true ∧
    (cs "intro").contains '#' = false ∧
    (parseSections (cs "#\nbody")).length = 1 ∧
    ((splitLines (cs "#\nbody")).filter isHeadingMarkerLine).length = 0 := by
  decide

/-- C5 (amended): the sectionizer returns exactly one section per heading
regex match (which can differ from the number of heading-marker lines),
the sections are contiguous and non-overlapping with the last body
extending to end of document, and concatenating each full matched heading
with its body reconstructs the document from the first heading match
onward; text before the first match is not covered. -/
theorem sectionizer_sections_per_match_and_coverage :
    ∀ md : List Char, (parseSections md).length = (headingMatches md).length ∧
      sectionsConcat md (headingMatches md) =
        md.drop (match headingMatches md with | [] => md.length | m :: _ => m.1) := by
  intro md
  constructor
  · exact buildSections_length md (headingMatches md)
  · have hp := headingMatchesAux_props md.length true 0 md
    refine sectionsConcat_eq md (headingMatches md) 0 hp.1 ?_
    intro m hm
    have := hp.2 m hm
    omega
